import Mathlib

/-!
Verification of the dependency-resolution core of `ino` (`ino/commands/build.py`).

The development shallowly embeds:
* the usage-report line matcher of `Build._scan_dependencies` (the regex
  `\s+(?P<libdir>{dirname}{slash}([^{slash}])+){slash}` applied with `re.search`
  to every line of the generated `dependencies.d` file, first for the local
  library collection and then for the Arduino standard collection);
* the per-directory scan result accumulation (a Python `set` grown line by line);
* the error behaviour of `Build._scan_dependencies` (the `subprocess.call` exit
  status is never inspected; `open` on a missing report raises to the caller);
* the fixed-point loop of `Build.scan_dependencies` (batch scans over the
  snapshot `list(used_libs - scanned_libs)` until `scanned_libs == used_libs`),
  parameterised by the per-directory scan oracle;
* `Build.recursive_inc_lib_flags` together with a model of `ino.utils.list_subdirs`
  (that helper module is not part of the sources at hand and is modelled from the
  specification).
-/

namespace Ino

/-! ## The usage-report line matcher (`build.py` lines 135-148) -/

/-- Python `\s` for an ASCII-compiled pattern: space, tab, newline, carriage
return, vertical tab, form feed. -/
def isSpace (c : Char) : Bool :=
  (c = ' ') || (c = '\t') || (c = '\n') || (c = '\r') ||
    (c = Char.ofNat 11) || (c = Char.ofNat 12)

/-- Attempt of the tail of the regex `{dirname}{slash}([^{slash}])+{slash}` at a
fixed position of the line (the suffix `rest`).  Returns the text captured by the
group `libdir`, namely `dirname`, the separator, and the maximal nonempty run of
non-separator characters, which must be followed by one more separator. -/
def matchAfterWs (dirname : List Char) (sep : Char) (rest : List Char) : Option (List Char) :=
  if rest.take dirname.length = dirname then
    match rest.drop dirname.length with
    | [] => none
    | c :: rest2 =>
      if c = sep then
        match rest2.takeWhile (fun x => x != sep), rest2.dropWhile (fun x => x != sep) with
        | s0 :: seg1, c2 :: _ => if c2 = sep then some (dirname ++ sep :: s0 :: seg1) else none
        | _, _ => none
      else none
  else none

/-- Backtracking of the greedy `\s+`: with `k` whitespace characters available at
the current position of `s`, try the continuation after `k` of them, then after
`k - 1`, ..., down to one. -/
def tryKs (dirname : List Char) (sep : Char) (s : List Char) : Nat → Option (List Char)
  | 0 => none
  | k + 1 =>
    match matchAfterWs dirname sep (s.drop (k + 1)) with
    | some d => some d
    | none => tryKs dirname sep s k

/-- Attempt of the whole pattern `\s+{dirname}{slash}([^{slash}])+{slash}` at one
start position (the suffix `s`): the greedy run of whitespace must be nonempty. -/
def tryFrom (dirname : List Char) (sep : Char) (s : List Char) : Option (List Char) :=
  tryKs dirname sep s (s.takeWhile isSpace).length

/-- Model of `re.search`: try every start position of the line from the left and return
the group `libdir` of the first match. -/
def reSearch (dirname : List Char) (sep : Char) : List Char → Option (List Char)
  | [] => none
  | c :: rest =>
    match tryFrom dirname sep (c :: rest) with
    | some d => some d
    | none => reSearch dirname sep rest

/-- One line of `_scan_dependencies`: `local_re.search(line) or dist_re.search(line)`
(`build.py` line 146), with `libDir` the project-local library collection root and
`distDir` the Arduino standard one. -/
def lineLibdir (libDir distDir : List Char) (sep : Char) (line : List Char) :
    Option (List Char) :=
  match reSearch libDir sep line with
  | some d => some d
  | none => reSearch distDir sep line

/-- Loop body of the report scan: `used_libs.add(match.group('libdir'))` on a
match, modelling the Python `set` as an insertion-ordered duplicate-free list. -/
def addUsed (libDir distDir : List Char) (sep : Char) (acc : List (List Char))
    (line : List Char) : List (List Char) :=
  match lineLibdir libDir distDir sep line with
  | some d => if d ∈ acc then acc else acc ++ [d]
  | none => acc

/-- The `used_libs` set built by `_scan_dependencies` from the lines of the
usage-report file (`build.py` lines 143-150). -/
def usedLibsOf (libDir distDir : List Char) (sep : Char) (lines : List (List Char)) :
    List (List Char) :=
  lines.foldl (addUsed libDir distDir sep) []

/-! ## Error behaviour of one scan (`build.py` lines 122-150) -/

/-- The one failure `_scan_dependencies` can surface: the report file cannot be
opened (`open(output_filepath)` raises to the caller). -/
inductive ScanFailure where
  | artifactUnreadable
deriving DecidableEq

/-- One whole `_scan_dependencies` call.  `makeExitCode` is the status returned
by `subprocess.call(['make', ...])`; the source never inspects it, so it does not
occur on any right-hand side.  `report` is the content of the report file if it
could be opened (`none` models `open` raising `IOError`). -/
def scanDirFallible (makeExitCode : Int) (report : Option (List (List Char)))
    (libDir distDir : List Char) (sep : Char) :
    Except ScanFailure (List (List Char)) :=
  match makeExitCode, report with
  | _, none => Except.error ScanFailure.artifactUnreadable
  | _, some ls => Except.ok (usedLibsOf libDir distDir sep ls)

/-! ## Include-path flags (`build.py` lines 115-120) and `list_subdirs`

A directory path is a list of name segments; the filesystem is the flat list of
the directory paths that exist.  `ino.utils` is not among the sources at hand,
so `list_subdirs` is modelled from the specification. -/

/-- Modelled from the spec: `ino.utils.list_subdirs` (absent from the sources;
only its call sites in `build.py` are present).  Per the specification it lists
the subdirectories of `dirname` (only the immediate ones unless `recursive`),
excluding — at every depth — any subtree whose directory name is literally in
`exclude`. -/
def list_subdirs (fs : List (List String)) (dirname : List String) (recursive : Bool)
    (exclude : List String) : List (List String) :=
  fs.filter (fun q =>
    decide (dirname.length < q.length) &&
    decide (q.take dirname.length = dirname) &&
    (recursive || decide (q.length = dirname.length + 1)) &&
    (q.drop dirname.length).all (fun s => decide (s ∉ exclude)))

/-- Embedding of `Build.recursive_inc_lib_flags`: for every root append `-I<root>` and then
one `-I<subdir>` per recursive subdirectory, excluding `examples` subtrees; a
flag is identified with the directory path it names.  `SpaceList` is a plain
Python list, so flags are appended with no deduplication. -/
def recursive_inc_lib_flags (fs : List (List String)) (libdirs : List (List String)) :
    List (List String) :=
  libdirs.flatMap (fun d => d :: list_subdirs fs d true ["examples"])

/-- Rendering of a segment path as the textual path the report scanner sees
(`"/" ++ segment` for each segment). -/
def renderPath (p : List String) : List Char :=
  p.foldl (fun acc s => acc ++ '/' :: s.toList) []

/-! ## The fixed-point resolver (`build.py` lines 152-166) -/

/-- State of the `while scanned_libs != used_libs` loop, with the order in which
directories were scanned recorded for the at-most-once property. -/
structure RState (α : Type) where
  used : Finset α
  scanned : Finset α
  trace : List α

variable {α : Type} [LinearOrder α]

/-- Enumeration of a finite set as a duplicate-free list (insertion sort of the
underlying multiset), modelling Python's `list(...)` over a set. -/
def finsetToList (s : Finset α) : List α :=
  Quot.liftOn s.val (fun l => l.insertionSort (fun a b => a ≤ b))
    (fun _ _ h => List.eq_of_perm_of_sorted
      ((List.perm_insertionSort _ _).trans (h.trans (List.perm_insertionSort _ _).symm))
      (List.sorted_insertionSort _ _) (List.sorted_insertionSort _ _))

/-- Body of the inner `for` loop: `used_libs |= self._scan_dependencies(lib_dir, ...)`
then `scanned_libs.add(lib_dir)`. -/
def scanStep (scan : α → Finset α) (s : RState α) (d : α) : RState α :=
  ⟨s.used ∪ scan d, insert d s.scanned, s.trace ++ [d]⟩

/-- The inner `for` loop over the snapshot `list(used_libs - scanned_libs)`. -/
def scanBatch (scan : α → Finset α) (s : RState α) (frontier : List α) : RState α :=
  frontier.foldl (scanStep scan) s

/-- One test of the `while` condition followed, if it holds, by one batch.  The
snapshot `list(used_libs - scanned_libs)` enumerates the set difference in some
order; Python's is unspecified, and it is taken here in sorted order (the claims
state the result is order-independent). -/
def resolveStep (scan : α → Finset α) (s : RState α) : RState α :=
  if s.used = s.scanned then s
  else scanBatch scan s (finsetToList (s.used \ s.scanned))

/-- Embedding of `Build.scan_dependencies`: the initial frontier is the scan of the project
source directory, `scanned_libs` starts empty, and the loop body is iterated;
`fuel` bounds the number of `while` iterations (the termination theorems show a
sufficient amount). -/
def scan_dependencies (scan : α → Finset α) (srcDir : α) (fuel : Nat) : RState α :=
  (resolveStep scan)^[fuel] ⟨scan srcDir, ∅, []⟩

/-- Loop invariant of the resolver: `scanned_libs` stays inside `used_libs`, and
the trace lists every scanned directory exactly once. -/
def Inv (s : RState α) : Prop :=
  s.scanned ⊆ s.used ∧ s.trace.Nodup ∧ s.trace.toFinset = s.scanned

/-! ## Resolver lemmas -/

theorem coe_finsetToList (s : Finset α) : (finsetToList s : Multiset α) = s.val := by
  obtain ⟨l, hl⟩ := Quot.exists_rep s.val
  unfold finsetToList
  rw [← hl]
  exact Quot.sound (List.perm_insertionSort _ l)

theorem finsetToList_nodup (s : Finset α) : (finsetToList s).Nodup := by
  have h := s.nodup
  rw [← coe_finsetToList s] at h
  exact Multiset.coe_nodup.mp h

theorem mem_finsetToList {s : Finset α} {a : α} : a ∈ finsetToList s ↔ a ∈ s := by
  rw [← Multiset.mem_coe, coe_finsetToList]
  exact Iff.rfl

theorem toFinset_finsetToList (s : Finset α) : (finsetToList s).toFinset = s := by
  ext a
  rw [List.mem_toFinset, mem_finsetToList]

theorem scanBatch_cons (scan : α → Finset α) (s : RState α) (d : α) (fr : List α) :
    scanBatch scan s (d :: fr) = scanBatch scan (scanStep scan s d) fr := by
  simp [scanBatch]

theorem scanBatch_scanned (scan : α → Finset α) (fr : List α) :
    ∀ s : RState α, (scanBatch scan s fr).scanned = s.scanned ∪ fr.toFinset := by
  induction fr with
  | nil => intro s; simp [scanBatch]
  | cons d fr ih =>
    intro s
    rw [scanBatch_cons, ih]
    simp [scanStep, Finset.insert_union, Finset.union_insert]

theorem scanBatch_trace (scan : α → Finset α) (fr : List α) :
    ∀ s : RState α, (scanBatch scan s fr).trace = s.trace ++ fr := by
  induction fr with
  | nil => intro s; simp [scanBatch]
  | cons d fr ih =>
    intro s
    rw [scanBatch_cons, ih]
    simp [scanStep]

theorem scanBatch_used_mono (scan : α → Finset α) (fr : List α) :
    ∀ s : RState α, s.used ⊆ (scanBatch scan s fr).used := by
  induction fr with
  | nil => intro s; simp [scanBatch]
  | cons d fr ih =>
    intro s
    rw [scanBatch_cons]
    refine Finset.Subset.trans ?_ (ih (scanStep scan s d))
    exact Finset.subset_union_left

theorem scanBatch_used_bound (scan : α → Finset α) (C : Finset α) (hs : ∀ d, scan d ⊆ C)
    (fr : List α) : ∀ s : RState α, s.used ⊆ C → (scanBatch scan s fr).used ⊆ C := by
  induction fr with
  | nil => intro s h; simpa [scanBatch] using h
  | cons d fr ih =>
    intro s h
    rw [scanBatch_cons]
    exact ih _ (Finset.union_subset h (hs d))

theorem resolveStep_of_fixed (scan : α → Finset α) (s : RState α)
    (h : s.used = s.scanned) : resolveStep scan s = s := by
  simp [resolveStep, h]

theorem resolveStep_scanned_of_ne (scan : α → Finset α) (s : RState α) (hinv : Inv s)
    (hne : s.used ≠ s.scanned) : (resolveStep scan s).scanned = s.used := by
  rw [resolveStep, if_neg hne, scanBatch_scanned, toFinset_finsetToList]
  exact Finset.union_sdiff_of_subset hinv.1

theorem resolveStep_inv (scan : α → Finset α) (s : RState α) (h : Inv s) :
    Inv (resolveStep scan s) := by
  by_cases hf : s.used = s.scanned
  · rwa [resolveStep_of_fixed scan s hf]
  · have hsc : (resolveStep scan s).scanned = s.used := resolveStep_scanned_of_ne scan s h hf
    have hmono : s.used ⊆ (resolveStep scan s).used := by
      rw [resolveStep, if_neg hf]; exact scanBatch_used_mono scan _ s
    have htr : (resolveStep scan s).trace
        = s.trace ++ finsetToList (s.used \ s.scanned) := by
      rw [resolveStep, if_neg hf, scanBatch_trace]
    refine ⟨hsc ▸ hmono, ?_, ?_⟩
    · rw [htr, List.nodup_append]
      refine ⟨h.2.1, finsetToList_nodup _, ?_⟩
      intro x hx hx'
      have hxs : x ∈ s.scanned := by
        rw [← h.2.2]; exact List.mem_toFinset.mpr hx
      have : x ∈ s.used \ s.scanned := mem_finsetToList.mp hx'
      exact (Finset.mem_sdiff.mp this).2 hxs
    · rw [htr, List.toFinset_append, h.2.2, toFinset_finsetToList, hsc]
      exact Finset.union_sdiff_of_subset h.1

theorem resolveStep_used_mono (scan : α → Finset α) (s : RState α) :
    s.used ⊆ (resolveStep scan s).used := by
  by_cases hf : s.used = s.scanned
  · rw [resolveStep_of_fixed scan s hf]
  · rw [resolveStep, if_neg hf]; exact scanBatch_used_mono scan _ s

theorem resolveStep_used_bound (scan : α → Finset α) (C : Finset α) (hs : ∀ d, scan d ⊆ C)
    (s : RState α) (h : s.used ⊆ C) : (resolveStep scan s).used ⊆ C := by
  by_cases hf : s.used = s.scanned
  · rwa [resolveStep_of_fixed scan s hf]
  · rw [resolveStep, if_neg hf]; exact scanBatch_used_bound scan C hs _ s h

theorem scan_dependencies_succ (scan : α → Finset α) (srcDir : α) (k : ℕ) :
    scan_dependencies scan srcDir (k + 1)
      = resolveStep scan (scan_dependencies scan srcDir k) :=
  Function.iterate_succ_apply' (resolveStep scan) k _

theorem scan_dependencies_inv (scan : α → Finset α) (srcDir : α) :
    ∀ k, Inv (scan_dependencies scan srcDir k) := by
  intro k
  induction k with
  | zero => exact ⟨Finset.empty_subset _, List.nodup_nil, by simp [scan_dependencies]⟩
  | succ k ih => rw [scan_dependencies_succ]; exact resolveStep_inv scan _ ih

theorem scan_dependencies_used_bound (scan : α → Finset α) (C : Finset α)
    (hs : ∀ d, scan d ⊆ C) (srcDir : α) :
    ∀ k, (scan_dependencies scan srcDir k).used ⊆ C := by
  intro k
  induction k with
  | zero => exact hs srcDir
  | succ k ih => rw [scan_dependencies_succ]; exact resolveStep_used_bound scan C hs _ ih

theorem scan_dependencies_used_mono (scan : α → Finset α) (srcDir : α) (k : ℕ) :
    (scan_dependencies scan srcDir k).used ⊆ (scan_dependencies scan srcDir (k + 1)).used := by
  rw [scan_dependencies_succ]
  exact resolveStep_used_mono scan _

theorem scan_dependencies_progress (scan : α → Finset α) (srcDir : α) :
    ∀ k, (scan_dependencies scan srcDir k).used = (scan_dependencies scan srcDir k).scanned
      ∨ k ≤ (scan_dependencies scan srcDir k).scanned.card := by
  intro k
  induction k with
  | zero => exact Or.inr (Nat.zero_le _)
  | succ k ih =>
    by_cases hf : (scan_dependencies scan srcDir k).used
        = (scan_dependencies scan srcDir k).scanned
    · left
      rw [scan_dependencies_succ, resolveStep_of_fixed scan _ hf]
      exact hf
    · right
      have hinv := scan_dependencies_inv scan srcDir k
      have hlt : (scan_dependencies scan srcDir k).scanned.card
          < (scan_dependencies scan srcDir k).used.card := by
        refine Finset.card_lt_card ⟨hinv.1, fun hsub => hf ?_⟩
        exact Finset.Subset.antisymm hsub hinv.1
      have hk : k ≤ (scan_dependencies scan srcDir k).scanned.card := by
        rcases ih with h | h
        · exact absurd h hf
        · exact h
      rw [scan_dependencies_succ, resolveStep_scanned_of_ne scan _ hinv hf]
      omega

theorem scan_dependencies_fixed (scan : α → Finset α) (C : Finset α)
    (hs : ∀ d, scan d ⊆ C) (srcDir : α) :
    (scan_dependencies scan srcDir C.card).used
      = (scan_dependencies scan srcDir C.card).scanned := by
  rcases scan_dependencies_progress scan srcDir C.card with h | h
  · exact h
  · have hinv := scan_dependencies_inv scan srcDir C.card
    have hub := scan_dependencies_used_bound scan C hs srcDir C.card
    have hscC : (scan_dependencies scan srcDir C.card).scanned = C :=
      Finset.eq_of_subset_of_card_le (hinv.1.trans hub) h
    refine Finset.Subset.antisymm ?_ hinv.1
    rw [hscC]
    exact hub

theorem scan_dependencies_stable (scan : α → Finset α) (C : Finset α)
    (hs : ∀ d, scan d ⊆ C) (srcDir : α) :
    ∀ m, C.card ≤ m → scan_dependencies scan srcDir m = scan_dependencies scan srcDir C.card := by
  have haux : ∀ j, scan_dependencies scan srcDir (C.card + j)
      = scan_dependencies scan srcDir C.card := by
    intro j
    induction j with
    | zero => rfl
    | succ j ih =>
      have : C.card + (j + 1) = (C.card + j) + 1 := rfl
      rw [this, scan_dependencies_succ, ih,
        resolveStep_of_fixed scan _ (scan_dependencies_fixed scan C hs srcDir)]
  intro m hm
  obtain ⟨j, rfl⟩ := Nat.exists_eq_add_of_le hm
  exact haux j

/-! ## Claims about the resolver -/

/-- C1: the resolve loop of `Build.scan_dependencies` terminates — with every
scanner output drawn from a finite universe `C` of library directories the loop
reaches `scanned_libs = used_libs` within `C.card` batch iterations — and every
library directory is scanned at most once (the scan trace has no duplicates),
even when usage reports reference each other cyclically. -/
theorem resolve_terminates_scans_once (scan : α → Finset α) (C : Finset α)
    (hs : ∀ d, scan d ⊆ C) (srcDir : α) :
    (∀ fuel, (scan_dependencies scan srcDir fuel).trace.Nodup) ∧
    (scan_dependencies scan srcDir C.card).used
      = (scan_dependencies scan srcDir C.card).scanned :=
  ⟨fun fuel => (scan_dependencies_inv scan srcDir fuel).2.1,
   scan_dependencies_fixed scan C hs srcDir⟩

/-- Witness for C1, at the cyclic instance of the claim: library 0's report
names library 1 and library 1's names 0; the loop exits with `{0, 1}` and each
of the two is scanned exactly once. -/
theorem resolve_terminates_scans_once_witness :
    (scan_dependencies (fun d : Fin 2 => if d = 0 then {1} else {0}) 0 2).trace.Nodup ∧
    (scan_dependencies (fun d : Fin 2 => if d = 0 then {1} else {0}) 0
        (Finset.card ({0, 1} : Finset (Fin 2)))).used
      = (scan_dependencies (fun d : Fin 2 => if d = 0 then {1} else {0}) 0
        (Finset.card ({0, 1} : Finset (Fin 2)))).scanned ∧
    (scan_dependencies (fun d : Fin 2 => if d = 0 then {1} else {0}) 0 2).used = {0, 1} ∧
    (scan_dependencies (fun d : Fin 2 => if d = 0 then {1} else {0}) 0 2).trace = [1, 0] := by
  have h := resolve_terminates_scans_once (fun d : Fin 2 => if d = 0 then {1} else {0})
    ({0, 1} : Finset (Fin 2)) (by decide) 0
  exact ⟨h.1 2, h.2, by decide, by decide⟩

/-- C2 amended: during one resolve run `used_libs` is non-decreasing across
loop iterations; the at-most-`C.card` batch-iteration bound holds whenever
every scanner output lies among the candidate library directories `C` (the
regime the specification's own termination argument assumes).  Without that
proviso the bound fails — the code does not restrict scan results to the
candidates, and a report chain through non-candidate directories makes the
loop run longer than `C.card` batches (see the counterexample). -/
theorem resolve_used_monotone_bounded (scan : α → Finset α) (C : Finset α)
    (hs : ∀ d, scan d ⊆ C) (srcDir : α) :
    (∀ fuel, (scan_dependencies scan srcDir fuel).used
        ⊆ (scan_dependencies scan srcDir (fuel + 1)).used) ∧
    (scan_dependencies scan srcDir C.card).used
      = (scan_dependencies scan srcDir C.card).scanned :=
  ⟨scan_dependencies_used_mono scan srcDir, scan_dependencies_fixed scan C hs srcDir⟩

/-- Witness for C2 at a concrete self-including library (`scan d = {d}`). -/
theorem resolve_used_monotone_bounded_witness :
    (scan_dependencies (fun d : Fin 2 => {d}) 0 3).used
      ⊆ (scan_dependencies (fun d : Fin 2 => {d}) 0 4).used ∧
    (scan_dependencies (fun d : Fin 2 => {d}) 0
        (Finset.card ({0, 1} : Finset (Fin 2)))).used
      = (scan_dependencies (fun d : Fin 2 => {d}) 0
        (Finset.card ({0, 1} : Finset (Fin 2)))).scanned := by
  have h := resolve_used_monotone_bounded (fun d : Fin 2 => {d})
    ({0, 1} : Finset (Fin 2)) (by decide) 0
  exact ⟨h.1 3, h.2⟩

/-- C2 counterexample: the usage report for the project source directory names
the non-candidate `/l/G1`, whose own report names the non-candidate `/l/G2`;
the candidate set (the immediate subdirectories of the collections `/l` and
`/d`) is just `/l/A`, of size one, yet after one batch iteration the loop has
not reached `scanned_libs = used_libs` — the while loop is not bounded by the
number of candidate library directories. -/
theorem resolve_exceeds_candidate_bound_cex :
    ¬ ((scan_dependencies
          (fun dir : List Char =>
            (usedLibsOf "/l".toList "/d".toList '/'
              (if dir = "src".toList then [" /l/G1/x.h".toList]
               else if dir = "/l/G1".toList then [" /l/G2/x.h".toList]
               else [])).toFinset)
          "src".toList
          (Finset.card
            (((list_subdirs [["l"], ["l", "A"], ["d"]] ["l"] false []).map renderPath
              ++ (list_subdirs [["l"], ["l", "A"], ["d"]] ["d"] false []).map
                  renderPath).toFinset))).used
        = (scan_dependencies
            (fun dir : List Char =>
              (usedLibsOf "/l".toList "/d".toList '/'
                (if dir = "src".toList then [" /l/G1/x.h".toList]
                 else if dir = "/l/G1".toList then [" /l/G2/x.h".toList]
                 else [])).toFinset)
            "src".toList
            (Finset.card
              (((list_subdirs [["l"], ["l", "A"], ["d"]] ["l"] false []).map renderPath
                ++ (list_subdirs [["l"], ["l", "A"], ["d"]] ["d"] false []).map
                    renderPath).toFinset))).scanned) := by
  decide

/-- C9: resolve is deterministic with respect to the scanner's outputs — two
runs driven by pointwise-equal scanners (the same usage report produced for
every scanned directory), each given enough fuel for the loop to exit, produce
identical final states, in particular identical ResolvedDependencies sets. -/
theorem resolve_deterministic (scan scan' : α → Finset α) (C : Finset α)
    (heq : ∀ d, scan d = scan' d) (hs : ∀ d, scan d ⊆ C) (srcDir : α)
    (f1 f2 : ℕ) (h1 : C.card ≤ f1) (h2 : C.card ≤ f2) :
    scan_dependencies scan srcDir f1 = scan_dependencies scan' srcDir f2 := by
  have hfun : scan = scan' := funext heq
  subst hfun
  rw [scan_dependencies_stable scan C hs srcDir f1 h1,
    scan_dependencies_stable scan C hs srcDir f2 h2]

/-- Witness for C9 at a concrete scanner and two different fuel amounts. -/
theorem resolve_deterministic_witness :
    scan_dependencies (fun _ : Fin 2 => ({0} : Finset (Fin 2))) 0 2
      = scan_dependencies (fun _ : Fin 2 => ({0} : Finset (Fin 2))) 0 5 :=
  resolve_deterministic (fun _ => {0}) (fun _ => {0}) {0} (fun _ => rfl) (by decide) 0 2 5
    (by decide) (by decide)

/-- C4 amended: the final resolved set is bounded by any set `C` that contains
every scanner output (including the initial scan of the project source
directory); in particular it is a subset of the candidate library directories
exactly when every usage-report match names a candidate.  The code itself never
restricts matches to the candidate list, so the unconditional subset claim
fails (see the counterexample). -/
theorem resolve_used_subset_of_scan_subset (scan : α → Finset α) (C : Finset α)
    (hs : ∀ d, scan d ⊆ C) (srcDir : α) (fuel : ℕ) :
    (scan_dependencies scan srcDir fuel).used ⊆ C :=
  scan_dependencies_used_bound scan C hs srcDir fuel

/-- Witness for the amended C4 at a concrete scanner. -/
theorem resolve_used_subset_of_scan_subset_witness :
    (scan_dependencies (fun _ : Fin 2 => ({1} : Finset (Fin 2))) 1 3).used ⊆ {1} :=
  resolve_used_subset_of_scan_subset (fun _ => {1}) {1} (by decide) 1 3

/-- C4 counterexample: the usage report for the project source directory
contains the line ` /l/Ghost/x.h` while the candidate library directories (the
immediate subdirectories of the collections `/l` and `/d`, here only `/l/A`)
do not contain `/l/Ghost`; the resolver nevertheless returns `/l/Ghost`, so the
final set is not a subset of the candidates the include flags were built
from. -/
theorem resolve_subset_candidates_cex :
    ¬ ((scan_dependencies
          (fun dir : List Char =>
            (usedLibsOf "/l".toList "/d".toList '/'
              (if dir = "src".toList then [" /l/Ghost/x.h".toList] else [])).toFinset)
          "src".toList 2).used
        ⊆ (((list_subdirs [["l"], ["l", "A"], ["d"]] ["l"] false []).map renderPath)
            ++ ((list_subdirs [["l"], ["l", "A"], ["d"]] ["d"] false []).map renderPath)).toFinset) := by
  decide

/-! ## Scanner lemmas -/

theorem takeWhile_append_sep (sep : Char) (seg t : List Char) (h : ∀ x ∈ seg, x ≠ sep) :
    (seg ++ sep :: t).takeWhile (fun x => x != sep) = seg := by
  induction seg with
  | nil => simp [List.takeWhile_cons]
  | cons a seg ih =>
    have ha : (a != sep) = true := bne_iff_ne.mpr (h a (List.mem_cons_self a seg))
    simp only [List.cons_append, List.takeWhile_cons, ha, if_true]
    rw [ih (fun x hx => h x (List.mem_cons_of_mem a hx))]

theorem dropWhile_append_sep (sep : Char) (seg t : List Char) (h : ∀ x ∈ seg, x ≠ sep) :
    (seg ++ sep :: t).dropWhile (fun x => x != sep) = sep :: t := by
  induction seg with
  | nil => simp [List.dropWhile_cons]
  | cons a seg ih =>
    have ha : (a != sep) = true := bne_iff_ne.mpr (h a (List.mem_cons_self a seg))
    simp only [List.cons_append, List.dropWhile_cons, ha, if_true]
    exact ih (fun x hx => h x (List.mem_cons_of_mem a hx))

theorem mem_takeWhile_pred {p : Char → Bool} :
    ∀ {l : List Char} {x : Char}, x ∈ l.takeWhile p → p x = true := by
  intro l
  induction l with
  | nil => intro x hx; simp at hx
  | cons a l ih =>
    intro x hx
    rw [List.takeWhile_cons] at hx
    by_cases hpa : p a = true
    · rw [if_pos hpa] at hx
      rcases List.mem_cons.mp hx with rfl | hx'
      · exact hpa
      · exact ih hx'
    · rw [if_neg hpa] at hx
      simp at hx

theorem matchAfterWs_pos (dirname seg t : List Char) (sep : Char)
    (hseg : seg ≠ []) (hsep : ∀ x ∈ seg, x ≠ sep) :
    matchAfterWs dirname sep (dirname ++ sep :: (seg ++ sep :: t))
      = some (dirname ++ sep :: seg) := by
  obtain ⟨s0, seg1, rfl⟩ : ∃ s0 seg1, seg = s0 :: seg1 := by
    cases seg with
    | nil => exact absurd rfl hseg
    | cons s0 seg1 => exact ⟨s0, seg1, rfl⟩
  have htw := takeWhile_append_sep sep (s0 :: seg1) t hsep
  have hdw := dropWhile_append_sep sep (s0 :: seg1) t hsep
  unfold matchAfterWs
  simp only [List.take_left, List.drop_left, htw, hdw, eq_self_iff_true, if_true]

theorem matchAfterWs_some {dirname rest d : List Char} {sep : Char}
    (h : matchAfterWs dirname sep rest = some d) :
    ∃ seg t : List Char, seg ≠ [] ∧ (∀ x ∈ seg, x ≠ sep) ∧ d = dirname ++ sep :: seg ∧
      rest = dirname ++ sep :: (seg ++ sep :: t) := by
  unfold matchAfterWs at h
  split at h
  · next htake =>
    split at h
    · exact absurd h (by simp)
    · next c rest2 hdrop =>
      split at h
      · next hc =>
        split at h
        · next s0 seg1 c2 t2 htw hdw =>
          split at h
          · next hc2 =>
            have hd : d = dirname ++ sep :: s0 :: seg1 := by
              injection h with h'
              exact h'.symm
            refine ⟨s0 :: seg1, t2, by simp, ?_, hd, ?_⟩
            · intro x hx
              have hx0 : x ∈ rest2.takeWhile (fun y => y != sep) := htw.symm ▸ hx
              have hx' := mem_takeWhile_pred hx0
              exact bne_iff_ne.mp hx'
            · have hrest2 : rest2 = (s0 :: seg1) ++ sep :: t2 := by
                have haux := List.takeWhile_append_dropWhile (fun x => x != sep) rest2
                rw [htw, hdw, hc2] at haux
                exact haux.symm
              rw [← List.take_append_drop dirname.length rest, htake, hdrop, hc, hrest2]
          · exact absurd h (by simp)
        · exact absurd h (by simp)
      · exact absurd h (by simp)
  · exact absurd h (by simp)

theorem tryKs_zero (dirname : List Char) (sep : Char) (s : List Char) :
    tryKs dirname sep s 0 = none := rfl

theorem tryKs_succ (dirname : List Char) (sep : Char) (s : List Char) (k : Nat) :
    tryKs dirname sep s (k + 1)
      = match matchAfterWs dirname sep (s.drop (k + 1)) with
        | some d => some d
        | none => tryKs dirname sep s k := rfl

theorem reSearch_nil (dirname : List Char) (sep : Char) : reSearch dirname sep [] = none := rfl

theorem reSearch_cons (dirname : List Char) (sep c : Char) (rest : List Char) :
    reSearch dirname sep (c :: rest)
      = match tryFrom dirname sep (c :: rest) with
        | some d => some d
        | none => reSearch dirname sep rest := rfl

theorem tryKs_some {dirname : List Char} {sep : Char} {s d : List Char} :
    ∀ {n : Nat}, tryKs dirname sep s n = some d →
      ∃ k, 1 ≤ k ∧ k ≤ n ∧ matchAfterWs dirname sep (s.drop k) = some d := by
  intro n
  induction n with
  | zero => intro h; rw [tryKs_zero] at h; exact absurd h (by simp)
  | succ n ih =>
    intro h
    rw [tryKs_succ] at h
    split at h
    · next d' hm =>
      have hd : d' = d := by injection h
      exact ⟨n + 1, by omega, by omega, hd ▸ hm⟩
    · next hm =>
      obtain ⟨k, hk1, hkn, hmk⟩ := ih h
      exact ⟨k, hk1, by omega, hmk⟩

theorem exists_space_drop :
    ∀ (k : Nat) (s : List Char), 1 ≤ k → k ≤ (s.takeWhile isSpace).length →
      ∃ pre : List Char, ∃ c : Char, isSpace c = true ∧ s = pre ++ c :: s.drop k := by
  intro k
  induction k with
  | zero => intro s h1 _; exact absurd h1 (by omega)
  | succ k ih =>
    intro s h1 h2
    cases s with
    | nil => simp at h2
    | cons a s' =>
      by_cases ha : isSpace a = true
      · rcases Nat.eq_zero_or_pos k with hk0 | hkpos
        · subst hk0
          exact ⟨[], a, ha, by simp⟩
        · have h2' : k ≤ (s'.takeWhile isSpace).length := by
            rw [List.takeWhile_cons, if_pos ha] at h2
            simp at h2
            omega
          obtain ⟨pre, c, hc, hs'⟩ := ih s' hkpos h2'
          refine ⟨a :: pre, c, hc, ?_⟩
          rw [List.drop_succ_cons, List.cons_append]
          rw [← hs']
      · rw [List.takeWhile_cons, if_neg ha] at h2
        simp at h2

theorem reSearch_some {dirname : List Char} {sep : Char} :
    ∀ {line d : List Char}, reSearch dirname sep line = some d →
      ∃ pre seg t : List Char, ∃ c : Char, isSpace c = true ∧ seg ≠ [] ∧
        (∀ x ∈ seg, x ≠ sep) ∧ d = dirname ++ sep :: seg ∧
        line = pre ++ c :: (dirname ++ sep :: (seg ++ sep :: t)) := by
  intro line
  induction line with
  | nil => intro d h; rw [reSearch_nil] at h; exact absurd h (by simp)
  | cons a rest ih =>
    intro d h
    rw [reSearch_cons] at h
    split at h
    · next d' hm =>
      have hd : d' = d := by injection h
      subst hd
      unfold tryFrom at hm
      obtain ⟨k, hk1, hkn, hmk⟩ := tryKs_some hm
      obtain ⟨pre, c, hc, hs⟩ := exists_space_drop k (a :: rest) hk1 hkn
      obtain ⟨seg, t, hseg, hsep, hdd, hrest⟩ := matchAfterWs_some hmk
      refine ⟨pre, seg, t, c, hc, hseg, hsep, hdd, ?_⟩
      rw [hrest] at hs
      exact hs
    · next hm =>
      obtain ⟨pre, seg, t, c, hc, hseg, hsep, hdd, hline⟩ := ih h
      exact ⟨a :: pre, seg, t, c, hc, hseg, hsep, hdd, by rw [List.cons_append, hline]⟩

theorem reSearch_pos (dirname seg t : List Char) (w sep : Char)
    (hw : isSpace w = true) (hd : dirname ≠ []) (hds : ∀ c ∈ dirname, isSpace c = false)
    (hseg : seg ≠ []) (hsep : ∀ x ∈ seg, x ≠ sep) :
    reSearch dirname sep (w :: (dirname ++ sep :: (seg ++ sep :: t)))
      = some (dirname ++ sep :: seg) := by
  have htf : tryFrom dirname sep (w :: (dirname ++ sep :: (seg ++ sep :: t)))
      = some (dirname ++ sep :: seg) := by
    have hrun : ((w :: (dirname ++ sep :: (seg ++ sep :: t))).takeWhile isSpace).length
        = 0 + 1 := by
      obtain ⟨d0, dn', hdn⟩ : ∃ d0 dn', dirname = d0 :: dn' := by
        cases dirname with
        | nil => exact absurd rfl hd
        | cons d0 dn' => exact ⟨d0, dn', rfl⟩
      rw [List.takeWhile_cons, if_pos hw, hdn, List.cons_append, List.takeWhile_cons,
        if_neg (by simp [hds d0 (hdn ▸ List.mem_cons_self d0 dn')])]
      rfl
    unfold tryFrom
    rw [hrun, tryKs_succ]
    have hdrop1 : (w :: (dirname ++ sep :: (seg ++ sep :: t))).drop (0 + 1)
        = dirname ++ sep :: (seg ++ sep :: t) := rfl
    rw [hdrop1, matchAfterWs_pos dirname seg t sep hseg hsep]
  rw [reSearch_cons, htf]

theorem lineLibdir_some {libDir distDir line d : List Char} {sep : Char}
    (h : lineLibdir libDir distDir sep line = some d) :
    reSearch libDir sep line = some d ∨ reSearch distDir sep line = some d := by
  unfold lineLibdir at h
  split at h
  · next d' hm => exact Or.inl (hm.trans h)
  · next hm => exact Or.inr h

theorem addUsed_nodup (libDir distDir : List Char) (sep : Char) (acc : List (List Char))
    (line : List Char) (h : acc.Nodup) : (addUsed libDir distDir sep acc line).Nodup := by
  unfold addUsed
  split
  · next d hm =>
    split
    · exact h
    · next hd =>
      exact List.Nodup.append h (List.nodup_singleton d)
        (fun x hx hxd => hd ((List.mem_singleton.mp hxd) ▸ hx))
  · exact h

theorem mem_addUsed {libDir distDir : List Char} {sep : Char} {acc : List (List Char)}
    {line d : List Char} :
    d ∈ addUsed libDir distDir sep acc line
      ↔ d ∈ acc ∨ lineLibdir libDir distDir sep line = some d := by
  unfold addUsed
  split
  · next d' hm =>
    split
    · next hmem =>
      constructor
      · intro h
        exact Or.inl h
      · intro h
        rcases h with h | h
        · exact h
        · rw [hm] at h
          injection h with h'
          rw [← h']
          exact hmem
    · next hmem =>
      rw [List.mem_append, List.mem_singleton]
      constructor
      · intro h
        rcases h with h | h
        · exact Or.inl h
        · right
          rw [hm, h]
      · intro h
        rcases h with h | h
        · exact Or.inl h
        · rw [hm] at h
          injection h with h'
          exact Or.inr h'.symm
  · next hm =>
    constructor
    · exact Or.inl
    · intro h
      rcases h with h | h
      · exact h
      · rw [hm] at h
        exact absurd h (by simp)

theorem foldl_addUsed_nodup (libDir distDir : List Char) (sep : Char) :
    ∀ (lines acc : List (List Char)), acc.Nodup →
      (lines.foldl (addUsed libDir distDir sep) acc).Nodup := by
  intro lines
  induction lines with
  | nil => intro acc h; exact h
  | cons l ls ih => intro acc h; exact ih _ (addUsed_nodup _ _ _ _ _ h)

theorem mem_foldl_addUsed (libDir distDir : List Char) (sep : Char) :
    ∀ (lines acc : List (List Char)) (d : List Char),
      d ∈ lines.foldl (addUsed libDir distDir sep) acc
        ↔ d ∈ acc ∨ ∃ line ∈ lines, lineLibdir libDir distDir sep line = some d := by
  intro lines
  induction lines with
  | nil => intro acc d; simp
  | cons l ls ih =>
    intro acc d
    rw [List.foldl_cons, ih, mem_addUsed]
    constructor
    · rintro ((h | h) | ⟨line, hl, hm⟩)
      · exact Or.inl h
      · exact Or.inr ⟨l, List.mem_cons_self _ _, h⟩
      · exact Or.inr ⟨line, List.mem_cons_of_mem _ hl, hm⟩
    · rintro (h | ⟨line, hl, hm⟩)
      · exact Or.inl (Or.inl h)
      · rcases List.mem_cons.mp hl with rfl | hl'
        · exact Or.inl (Or.inr hm)
        · exact Or.inr ⟨line, hl', hm⟩

/-! ## Claims about the report scanner -/

/-- C3: the matcher of `_scan_dependencies` is boundary-aware.  (1) Whatever it
captures is the collection root, the separator, and one full nonempty
separator-free path segment that is followed in the line by one more separator;
(2) on a line naming `FooBar/x.h` under the collection it captures the `FooBar`
directory and never the candidate root `Foo`; (3) on a line naming `Foo/x.h` it
captures exactly the root `Foo`. -/
theorem scanner_boundary_aware :
    (∀ (dirname line d : List Char) (sep : Char), reSearch dirname sep line = some d →
      ∃ seg : List Char, seg ≠ [] ∧ (∀ x ∈ seg, x ≠ sep) ∧ d = dirname ++ sep :: seg ∧
        ∃ pre t : List Char, ∃ c : Char, line = pre ++ c :: (d ++ sep :: t)) ∧
    (∀ (dirname foo bar t : List Char) (w sep : Char),
      isSpace w = true → dirname ≠ [] → (∀ c ∈ dirname, isSpace c = false) →
      foo ++ bar ≠ [] → bar ≠ [] → (∀ x ∈ foo ++ bar, x ≠ sep) →
      reSearch dirname sep (w :: (dirname ++ sep :: ((foo ++ bar) ++ sep :: t)))
          = some (dirname ++ sep :: (foo ++ bar)) ∧
        reSearch dirname sep (w :: (dirname ++ sep :: ((foo ++ bar) ++ sep :: t)))
          ≠ some (dirname ++ sep :: foo)) ∧
    (∀ (dirname foo t : List Char) (w sep : Char),
      isSpace w = true → dirname ≠ [] → (∀ c ∈ dirname, isSpace c = false) →
      foo ≠ [] → (∀ x ∈ foo, x ≠ sep) →
      reSearch dirname sep (w :: (dirname ++ sep :: (foo ++ sep :: t)))
        = some (dirname ++ sep :: foo)) := by
  refine ⟨?_, ?_, ?_⟩
  · intro dirname line d sep h
    obtain ⟨pre, seg, t, c, hc, hseg, hsep, hdd, hline⟩ := reSearch_some h
    refine ⟨seg, hseg, hsep, hdd, pre, t, c, ?_⟩
    rw [hline, hdd]
    simp
  · intro dirname foo bar t w sep hw hd hds hfb hbar hsep
    have hpos := reSearch_pos dirname (foo ++ bar) t w sep hw hd hds hfb hsep
    refine ⟨hpos, ?_⟩
    rw [hpos]
    intro hcontra
    injection hcontra with h'
    have hlen := congrArg List.length h'
    simp [List.length_append] at hlen
    exact hbar hlen
  · intro dirname foo t w sep hw hd hds hfoo hsep
    exact reSearch_pos dirname foo t w sep hw hd hds hfoo hsep

/-- Witness for C3: with the local collection root `/l`, the line
` /l/FooBar/x.h` is captured as the directory `/l/FooBar` and not as the
candidate root `/l/Foo`, while ` /l/Servo/Servo.h` is captured as `/l/Servo`. -/
theorem scanner_boundary_aware_witness :
    reSearch "/l".toList '/'
        (' ' :: ("/l".toList ++ '/' :: (("Foo".toList ++ "Bar".toList) ++ '/' :: "x.h".toList)))
      = some ("/l".toList ++ '/' :: ("Foo".toList ++ "Bar".toList)) ∧
    reSearch "/l".toList '/'
        (' ' :: ("/l".toList ++ '/' :: (("Foo".toList ++ "Bar".toList) ++ '/' :: "x.h".toList)))
      ≠ some ("/l".toList ++ '/' :: "Foo".toList) ∧
    reSearch "/l".toList '/'
        (' ' :: ("/l".toList ++ '/' :: ("Servo".toList ++ '/' :: "Servo.h".toList)))
      = some ("/l".toList ++ '/' :: "Servo".toList) := by
  have h2 := (scanner_boundary_aware).2.1 "/l".toList "Foo".toList "Bar".toList "x.h".toList
    ' ' '/' (by decide) (by decide) (by decide) (by decide) (by decide) (by decide)
  have h3 := (scanner_boundary_aware).2.2 "/l".toList "Servo".toList "Servo.h".toList
    ' ' '/' (by decide) (by decide) (by decide) (by decide) (by decide)
  exact ⟨h2.1, h2.2, h3⟩

/-- C7: one scan of one directory returns a deduplicated set of matched library
root directories, not header files: the result list is duplicate-free, a
directory is in it exactly when some report line matches it (so a root appears
once no matter how many of its headers are matched), and every element is a
collection root extended by exactly one path segment — a root directory. -/
theorem scan_result_dedup_roots (libDir distDir : List Char) (sep : Char)
    (lines : List (List Char)) :
    (usedLibsOf libDir distDir sep lines).Nodup ∧
    (∀ d, d ∈ usedLibsOf libDir distDir sep lines
        ↔ ∃ line ∈ lines, lineLibdir libDir distDir sep line = some d) ∧
    (∀ d ∈ usedLibsOf libDir distDir sep lines,
      ∃ seg : List Char, seg ≠ [] ∧
        (d = libDir ++ sep :: seg ∨ d = distDir ++ sep :: seg)) := by
  refine ⟨foldl_addUsed_nodup libDir distDir sep lines [] List.nodup_nil, ?_, ?_⟩
  · intro d
    rw [usedLibsOf, mem_foldl_addUsed]
    simp
  · intro d hd
    rw [usedLibsOf, mem_foldl_addUsed] at hd
    rcases hd with h | ⟨line, _, hm⟩
    · simp at h
    · rcases lineLibdir_some hm with h' | h'
      · obtain ⟨_, seg, _, _, _, hseg, _, hdd, _⟩ := reSearch_some h'
        exact ⟨seg, hseg, Or.inl hdd⟩
      · obtain ⟨_, seg, _, _, _, hseg, _, hdd, _⟩ := reSearch_some h'
        exact ⟨seg, hseg, Or.inr hdd⟩

/-- Witness for C7: two report lines matching two different headers of the same
library yield the single root `/l/Servo`. -/
theorem scan_result_dedup_roots_witness :
    (usedLibsOf "/l".toList "/d".toList '/'
        [" /l/Servo/Servo.h".toList, " /l/Servo/utility/u.h".toList]).Nodup ∧
    usedLibsOf "/l".toList "/d".toList '/'
        [" /l/Servo/Servo.h".toList, " /l/Servo/utility/u.h".toList]
      = ["/l/Servo".toList] :=
  ⟨(scan_result_dedup_roots "/l".toList "/d".toList '/'
      [" /l/Servo/Servo.h".toList, " /l/Servo/utility/u.h".toList]).1, by decide⟩

/-- C10 (implicit): the matching regex starts with `\s+`, so every successful
match is immediately preceded by a whitespace character; a line on which the
library path starts at column zero — the whole line being whitespace-free —
matches no library. -/
theorem scan_match_requires_leading_whitespace :
    (∀ (libDir distDir line d : List Char) (sep : Char),
        lineLibdir libDir distDir sep line = some d →
        ∃ pre t : List Char, ∃ c : Char, isSpace c = true ∧
          line = pre ++ c :: (d ++ sep :: t)) ∧
    (∀ (libDir distDir line : List Char) (sep : Char),
        (∀ c ∈ line, isSpace c = false) → lineLibdir libDir distDir sep line = none) := by
  have hmain : ∀ (libDir distDir line d : List Char) (sep : Char),
      lineLibdir libDir distDir sep line = some d →
      ∃ pre t : List Char, ∃ c : Char, isSpace c = true ∧
        line = pre ++ c :: (d ++ sep :: t) := by
    intro libDir distDir line d sep h
    rcases lineLibdir_some h with h' | h'
    · obtain ⟨pre, seg, t, c, hc, _, _, hdd, hline⟩ := reSearch_some h'
      refine ⟨pre, t, c, hc, ?_⟩
      rw [hline, hdd]
      simp
    · obtain ⟨pre, seg, t, c, hc, _, _, hdd, hline⟩ := reSearch_some h'
      refine ⟨pre, t, c, hc, ?_⟩
      rw [hline, hdd]
      simp
  refine ⟨hmain, ?_⟩
  intro libDir distDir line sep hns
  rcases hv : lineLibdir libDir distDir sep line with _ | d
  · rfl
  · obtain ⟨pre, t, c, hc, hline⟩ := hmain libDir distDir line d sep hv
    have hcmem : c ∈ line := by
      rw [hline]
      exact List.mem_append_right _ (List.mem_cons_self _ _)
    exact absurd hc (by simp [hns c hcmem])

/-- Witness for C10: the line `/l/Servo/Servo.h`, whose library path starts at
column zero, matches nothing. -/
theorem scan_match_requires_leading_whitespace_witness :
    (∀ c ∈ "/l/Servo/Servo.h".toList, isSpace c = false) ∧
    lineLibdir "/l".toList "/d".toList '/' "/l/Servo/Servo.h".toList = none := by
  have h1 : ∀ c ∈ "/l/Servo/Servo.h".toList, isSpace c = false := by decide
  exact ⟨h1, scan_match_requires_leading_whitespace.2 "/l".toList "/d".toList
    "/l/Servo/Servo.h".toList '/' h1⟩

/-- C8: a non-zero exit status of the external `make` step does not change the
outcome of a scan — the report file is still read and parsed identically — and
a report file that cannot be opened at all is a fatal error surfaced to the
caller, never a silent empty result. -/
theorem scan_tool_failure_nonfatal_unreadable_fatal :
    (∀ (code code' : Int) (report : Option (List (List Char))) (libDir distDir : List Char)
        (sep : Char),
      scanDirFallible code report libDir distDir sep
        = scanDirFallible code' report libDir distDir sep) ∧
    (∀ (code : Int) (lines : List (List Char)) (libDir distDir : List Char) (sep : Char),
      scanDirFallible code (some lines) libDir distDir sep
        = Except.ok (usedLibsOf libDir distDir sep lines)) ∧
    (∀ (code : Int) (libDir distDir : List Char) (sep : Char),
      scanDirFallible code none libDir distDir sep
        = Except.error ScanFailure.artifactUnreadable) := by
  refine ⟨?_, ?_, ?_⟩
  · intro code code' report libDir distDir sep
    cases report with
    | none => rfl
    | some ls => rfl
  · intro code lines libDir distDir sep
    rfl
  · intro code libDir distDir sep
    rfl

/-! ## Include-path flag lemmas and claims -/

theorem mem_list_subdirs {fs : List (List String)} {dirname q : List String}
    {recursive : Bool} {exclude : List String} :
    q ∈ list_subdirs fs dirname recursive exclude
      ↔ q ∈ fs ∧ dirname.length < q.length ∧ q.take dirname.length = dirname ∧
        (recursive = true ∨ q.length = dirname.length + 1) ∧
        ∀ s ∈ q.drop dirname.length, s ∉ exclude := by
  unfold list_subdirs
  rw [List.mem_filter]
  simp only [Bool.and_eq_true, decide_eq_true_eq, Bool.or_eq_true, List.all_eq_true]
  tauto

theorem mem_inc_block {fs : List (List String)} {root q : List String} :
    q ∈ root :: list_subdirs fs root true ["examples"]
      ↔ q = root ∨ (q ∈ fs ∧ root.length < q.length ∧ q.take root.length = root ∧
          "examples" ∉ q.drop root.length) := by
  rw [List.mem_cons, mem_list_subdirs]
  constructor
  · rintro (rfl | ⟨hfs, hlen, htake, _, hexcl⟩)
    · exact Or.inl rfl
    · exact Or.inr ⟨hfs, hlen, htake,
        fun hmem => (hexcl _ hmem) (List.mem_singleton.mpr rfl)⟩
  · rintro (rfl | ⟨hfs, hlen, htake, hexcl⟩)
    · exact Or.inl rfl
    · refine Or.inr ⟨hfs, hlen, htake, Or.inl rfl, ?_⟩
      intro s hs hmem
      rw [List.mem_singleton] at hmem
      subst hmem
      exact hexcl hs

/-- C6: the include flags of one library root are the root itself plus exactly
those existing directories strictly below it whose relative path contains no
`examples` segment — a subtree rooted at a directory literally named
`examples` contributes no flag at any depth, while every ordinary nested
subdirectory contributes its flag. -/
theorem inc_flags_exclude_examples (fs : List (List String)) (root q : List String) :
    q ∈ recursive_inc_lib_flags fs [root]
      ↔ q = root ∨ (q ∈ fs ∧ root.length < q.length ∧ q.take root.length = root ∧
          "examples" ∉ q.drop root.length) := by
  unfold recursive_inc_lib_flags
  rw [show ([root].flatMap fun d => d :: list_subdirs fs d true ["examples"])
      = root :: list_subdirs fs root true ["examples"] by simp]
  exact mem_inc_block

/-- C5 counterexample: `recursive_inc_lib_flags` performs no deduplication
(`SpaceList` is a plain list).  With the library roots `a` and `a/b`, where
`a/b` is also a subdirectory of `a`, the flag for `a/b` is emitted twice. -/
theorem inc_flags_dup_cex :
    ¬ (recursive_inc_lib_flags [["a"], ["a", "b"]] [["a"], ["a", "b"]]).Nodup := by
  decide

/-- C5 amended: the flag list is duplicate-free provided the filesystem listing
and the root list are duplicate-free and no root is an ancestor (path-prefix)
of another — which holds for the sibling subdirectories the build actually
passes.  Without that proviso duplicates occur (see the counterexample), since
the code never deduplicates. -/
theorem inc_flags_nodup_of_disjoint_roots (fs libdirs : List (List String))
    (hfs : fs.Nodup) (hl : libdirs.Nodup)
    (hpre : ∀ d1 ∈ libdirs, ∀ d2 ∈ libdirs, d1 ≠ d2 → d2.take d1.length ≠ d1) :
    (recursive_inc_lib_flags fs libdirs).Nodup := by
  unfold recursive_inc_lib_flags
  rw [List.nodup_flatMap]
  constructor
  · intro d _
    rw [List.nodup_cons]
    constructor
    · intro hmem
      rw [mem_list_subdirs] at hmem
      exact absurd hmem.2.1 (lt_irrefl _)
    · exact hfs.filter _
  · refine hl.imp_of_mem ?_
    intro a b ha hb hab
    intro q hqa hqb
    rw [mem_inc_block] at hqa hqb
    have key : ∀ (x y : List String), x.length ≤ y.length →
        q.take x.length = x → q.take y.length = y → y.take x.length = x := by
      intro x y hxy hx hy
      rw [← hy, List.take_take, Nat.min_eq_left hxy, hx]
    rcases hqa with rfl | ⟨_, _, htakea, _⟩
    · rcases hqb with rfl | ⟨_, _, htakeb, _⟩
      · exact hab rfl
      · exact (hpre b hb q ha (fun h => hab h.symm)) htakeb
    · rcases hqb with rfl | ⟨_, _, htakeb, _⟩
      · exact (hpre a ha q hb hab) htakea
      · rcases Nat.le_total a.length b.length with hle | hle
        · exact hpre a ha b hb hab (key a b hle htakea htakeb)
        · exact hpre b hb a ha (fun h => hab h.symm) (key b a hle htakeb htakea)

/-- Witness for the amended C5: two sibling roots `a` and `b` with an ordinary
nested subdirectory give a duplicate-free flag list. -/
theorem inc_flags_nodup_of_disjoint_roots_witness :
    (recursive_inc_lib_flags [["a"], ["a", "x"], ["b"]] [["a"], ["b"]]).Nodup :=
  inc_flags_nodup_of_disjoint_roots [["a"], ["a", "x"], ["b"]] [["a"], ["b"]]
    (by decide) (by decide) (by decide)

end Ino
